import Mathlib

/-!
Verification development for the gocrypto repository: the `forwardsec`
forward-secrecy core (identity keys, session keys, per-message
encryption), the `hap` challenge/response helper and the `hash`
password-hash helper, shallowly embedded in Lean.

Byte strings are modelled as `List Nat`.  External collaborators that
are not part of the source tree (the dhkam key-agreement primitive, the
pks RSA signing primitive, the authsym authenticated cipher, the x509
and asn1 codecs, the pbkdf2 and keccak hash primitives) are modelled
from the interface contracts in the specification; each such definition
carries a doc comment saying so.  The protocol glue itself mirrors the
Go source line by line.
-/

namespace Gocrypto

abbrev Bytes := List Nat

/-- Flip bit `b` of the byte at position `i` (used to state tamper claims). -/
def flipBit (bs : Bytes) (i b : Nat) : Bytes :=
  bs.set i ((bs.getD i 0) ^^^ (2 ^ b))

/-! ## Wire codec (models encoding/asn1)

Modelled from the spec: a length-delimited, reversible, byte-exact
serialization of two-field records (`SignedAgreementExport`,
`EphemeralEnvelope`), standing in for `asn1.Marshal`/`asn1.Unmarshal`,
which are external to the source tree.  Fields are escaped with the
reserved byte 255 and terminated by the separator 255, 0; decoding
reads the two fields and ignores trailing bytes, as `asn1.Unmarshal`
ignores trailing input. -/
def escBytes : Bytes → Bytes
  | [] => []
  | x :: rest => if x = 255 then 255 :: 255 :: escBytes rest else x :: escBytes rest

/-- Modelled from the spec: decoder for one escaped, separator-terminated
field; returns the field and the remaining input. -/
def decField : Bytes → Option (Bytes × Bytes)
  | [] => none
  | x :: rest =>
    if x = 255 then
      match rest with
      | [] => none
      | y :: rest2 =>
        if y = 255 then (decField rest2).map (fun p => (255 :: p.1, p.2))
        else if y = 0 then some ([], rest2)
        else none
    else (decField rest).map (fun p => (x :: p.1, p.2))

namespace asn1

/-- Modelled from the spec: `asn1.Marshal` for a two-field byte record. -/
def MarshalPair (a b : Bytes) : Bytes :=
  escBytes a ++ 255 :: 0 :: (escBytes b ++ [255, 0])

/-- Modelled from the spec: `asn1.Unmarshal` for a two-field byte record;
trailing bytes are ignored, malformed input fails. -/
def UnmarshalPair (bs : Bytes) : Option (Bytes × Bytes) :=
  match decField bs with
  | none => none
  | some (a, r) =>
    match decField r with
    | none => none
    | some (b, _) => some (a, b)

end asn1

/-! ## Key-agreement primitive (models github.com/gokyle/dhkam) -/

namespace dhkam

/-- Modelled from the spec: `dhkam.GenerateKey(PRNG)`.  The injected
randomness source (spec section 9) is a counter; each draw yields a
fresh private agreement value in the group range 1..255. -/
def GenerateKey (r : Nat) : Nat × Nat := (r % 255 + 1, r + 1)

/-- Modelled from the spec: `PrivateKey.Export()`, the canonical public
value encoding of an agreement key (symbolic model: the public value is
the private value itself, encoded as one byte). -/
def Export (k : Nat) : Bytes := [k]

/-- Modelled from the spec: `dhkam.ImportPublic`, which fails on
malformed input or a value outside the group. -/
def ImportPublic : Bytes → Option Nat
  | [v] => if 1 ≤ v ∧ v ≤ 255 then some v else none
  | _ => none

/-- Modelled from the spec: the deterministic fixed-length expansion of
a raw shared secret into `len` bytes.  The secret material appears at
the head of both the leading (confidentiality) and, for `len` = 48, the
trailing (integrity) segment of the split. -/
def expandShared (n len : Nat) : Bytes :=
  ([n % 256, n / 256 % 256] ++ List.replicate 14 0) ++
    ([n % 256, n / 256 % 256] ++ List.replicate (len - 18) 0)

/-- Modelled from the spec: `PrivateKey.SharedKey(PRNG, pub, len)`:
deterministic, fixed-length, commutative shared-secret derivation
(symbolic model: multiply the private value by the peer public value);
fails when the peer value is absent or invalid for the group. -/
def SharedKey (priv : Nat) (peer : Option Nat) (len : Nat) : Option Bytes :=
  match peer with
  | none => none
  | some v => if v = 0 then none else some (expandShared (priv * v) len)

end dhkam

/-! ## Signing primitive (models gocrypto/chapter8/pks) -/

namespace pks

/-- Modelled from the spec: `pks.Sign(priv, msg)` of the RSA signing
primitive from chapter8/pks, which is not under the source tree.
Symbolic model: an injective token built from the private key and the
message. -/
def Sign (priv : Nat) (msg : Bytes) : Bytes :=
  List.replicate priv 1 ++ 0 :: msg

/-- Modelled from the spec: `pks.Verify(pub, msg, sig)`: succeeds exactly
when the signature is the one the matching private key produces. -/
def Verify (pub : Nat) (msg sig : Bytes) : Bool :=
  decide (sig = Sign pub msg)

end pks

/-! ## x509 identity codec (models crypto/x509) -/

/-- Key algorithms distinguished by the x509 model: 1 is RSA, 2 stands
for any non-RSA algorithm (for example ECDSA). -/
def rsaTag : Nat := 1

def otherTag : Nat := 2

/-- Modelled from the spec: `x509.MarshalPKIXPublicKey`, a tagged
canonical encoding of a public key of a given algorithm. -/
def marshalPKIX (tag k : Nat) : Bytes := tag :: List.replicate k 1

/-- Modelled from the spec: `x509.ParsePKIXPublicKey`, which decodes a
public key of any supported algorithm (RSA or not) and fails on
malformed input. -/
def parsePKIX : Bytes → Option (Nat × Nat)
  | [] => none
  | t :: rest =>
    if (t = rsaTag ∨ t = otherTag) ∧ rest.all (· = 1) then some (t, rest.length)
    else none

/-! ## Authenticated symmetric cipher (models gocrypto/chapter9/authsym) -/

namespace authsym

/-- `authsym.SymKeyLen`: the AES-128 confidentiality key length. -/
def SymKeyLen : Nat := 16

/-- Modelled from the spec: the CTR keystream, a deterministic byte
stream derived from the confidentiality key. -/
def keystream (sk : Bytes) (n : Nat) : Bytes :=
  (List.range n).map (fun i => (sk.getD 0 0 + i) % 256)

/-- Modelled from the spec: CTR-mode transform, an involutive xor of the
message with the keystream. -/
def ctr (sk m : Bytes) : Bytes :=
  List.zipWith Nat.xor m (keystream sk m.length)

/-- Modelled from the spec: the message tag, an ideal MAC binding the
integrity key and the ciphertext body (symbolic model: the informative
prefix of the mac key followed by a copy of the body). -/
def macTag (mk body : Bytes) : Bytes := mk.take 2 ++ body

/-- Modelled from the spec: `authsym.Encrypt(symkey, mackey, msg)`:
self-contained ciphertext of CTR body followed by the message tag. -/
def Encrypt (sk mk m : Bytes) : Bytes :=
  ctr sk m ++ macTag mk (ctr sk m)

/-- Modelled from the spec: `authsym.Decrypt(symkey, mackey, ct)`: split
the ciphertext into body and tag, fail unless the tag verifies, else
return the CTR-decrypted body. -/
def Decrypt (sk mk ct : Bytes) : Option Bytes :=
  if 2 ≤ ct.length ∧ (ct.length - 2) % 2 = 0 then
    let bl := (ct.length - 2) / 2
    let body := ct.take bl
    let tag := ct.drop bl
    if tag = macTag mk body then some (ctr sk body) else none
  else none

end authsym

/-! ## The forwardsec core (mirrors the source package forwardsec) -/

/-- Error taxonomy of the specification, used as the typed result of the
fallible core operations (Go surfaces the corresponding collaborator
errors as `error` values). -/
inductive Err where
  | keyGeneration
  | decode
  | keyImport
  | keyAgreement
  | signatureInvalid
  | signing
  | encryption
  | authFailed
  | encode
  deriving DecidableEq

/-- Failure injection for the fallible external primitives that consume
randomness (modelling whether `dhkam.GenerateKey`, `pks.Sign`,
`authsym.Encrypt` and `asn1.Marshal` succeed on a given call). -/
structure PrimEnv where
  dhGenOk : Bool
  signOk : Bool
  symEncOk : Bool
  marshalOk : Bool
  deriving DecidableEq

deriving instance DecidableEq for Except

/-- All primitives succeed: the normal operating environment. -/
def envOK : PrimEnv := ⟨true, true, true, true⟩

/-- `sharedKeyLen` from the source: the length L of the shared secret. -/
def sharedKeyLen : Nat := 48

/-- The split of the shared secret used by both `Encrypt` and `Decrypt`
(source lines `shared[:authsym.SymKeyLen]` and
`shared[authsym.SymKeyLen:]`): the leading confidentiality-key segment
and the trailing integrity-key segment. -/
def splitShared (shared : Bytes) : Bytes × Bytes :=
  (shared.take authsym.SymKeyLen, shared.drop authsym.SymKeyLen)

/-- `IdentityKey`: a long-term identity key (the RSA private key is a
symbolic token; its public key is the same token). -/
structure IdentityKey where
  key : Nat
  deriving DecidableEq

/-- `IdentityKey.Public`: the exported encoding of the public identity
key (`x509.MarshalPKIXPublicKey` of an RSA key). -/
def IdentityKey.Public (id : IdentityKey) : Bytes :=
  marshalPKIX rsaTag id.key

/-- Outcome of `ImportPeerIdentity`: the Go function returns an RSA key,
returns nil, or panics at the unchecked interface type assertion
`cert.(*rsa.PublicKey)`. -/
inductive ImportOutcome where
  | ok (k : Nat)
  | retNil
  | panicked
  deriving DecidableEq

/-- `ImportPeerIdentity`: parse the supplied encoding; return nil on a
parse failure; on success the source performs the type assertion
`cert.(*rsa.PublicKey)` with no ok-check, which panics when the decoded
key is not an RSA key. -/
def ImportPeerIdentity (input : Bytes) : ImportOutcome :=
  match parsePKIX input with
  | none => .retNil
  | some (t, k) => if t = rsaTag then .ok k else .panicked

/-- `SessionKey`: the per-peer session state of the source: the DH
private value, the encoded signed public export, and the peer public
value (`none` until `PeerSessionKey` succeeds). -/
structure SessionKey where
  key : Nat
  signedKey : Bytes
  peer : Option Nat
  deriving DecidableEq

/-- `IdentityKey.NewSessionKey`: generate a DH key pair, sign its export
with the identity key, marshal the signed record; return nil (`none`)
if any step fails, mirroring the source control flow. -/
def IdentityKey.NewSessionKey (env : PrimEnv) (id : IdentityKey) (r : Nat) :
    Option (SessionKey × Nat) :=
  if env.dhGenOk then
    let g := dhkam.GenerateKey r
    let pub := dhkam.Export g.1
    if env.signOk then
      let sig := pks.Sign id.key pub
      if env.marshalOk then some (⟨g.1, asn1.MarshalPair pub sig, none⟩, g.2)
      else none
    else none
  else none

/-- `SessionKey.Public`: the encoded signed export sent to the peer. -/
def SessionKey.Public (skey : SessionKey) : Bytes := skey.signedKey

/-- `SessionKey.PeerSessionKey`: unmarshal the signed record, verify the
signature against the peer identity, then import and store the peer
agreement public value.  Returns the resulting error or success
together with the (possibly updated) session state; every failure path
leaves the state untouched, as the source mutates `skey.peer` only
after all checks pass. -/
def SessionKey.PeerSessionKey (skey : SessionKey) (peer : Nat) (session : Bytes) :
    Except Err Unit × SessionKey :=
  match asn1.UnmarshalPair session with
  | none => (.error .decode, skey)
  | some (pub, sig) =>
    if pks.Verify peer pub sig then
      match dhkam.ImportPublic pub with
      | none => (.error .keyImport, skey)
      | some p => (.ok (), { skey with peer := some p })
    else (.error .signatureInvalid, skey)

/-- `SessionKey.Encrypt`: generate a fresh ephemeral DH key, derive the
shared secret against the stored peer value, split it, run the
authenticated cipher, and marshal the envelope of the ephemeral public
value and the ciphertext.  The PRNG counter is threaded through. -/
def SessionKey.Encrypt (env : PrimEnv) (skey : SessionKey) (message : Bytes) (r : Nat) :
    Except Err (Bytes × Nat) :=
  if env.dhGenOk then
    let g := dhkam.GenerateKey r
    match dhkam.SharedKey g.1 skey.peer sharedKeyLen with
    | none => .error .keyAgreement
    | some shared =>
      let ks := splitShared shared
      if env.symEncOk then
        let ct := authsym.Encrypt ks.1 ks.2 message
        if env.marshalOk then .ok (asn1.MarshalPair (dhkam.Export g.1) ct, g.2)
        else .error .encode
      else .error .encryption
  else .error .keyGeneration

/-- `SessionKey.Decrypt`: unmarshal the envelope, import the embedded
one-time public value, derive the shared secret with the session's own
private value, split it the same way, and run the authenticated
decryption. -/
def SessionKey.Decrypt (skey : SessionKey) (input : Bytes) : Except Err Bytes :=
  match asn1.UnmarshalPair input with
  | none => .error .decode
  | some (pubBytes, ct) =>
    match dhkam.ImportPublic pubBytes with
    | none => .error .keyImport
    | some pub =>
      match dhkam.SharedKey skey.key (some pub) sharedKeyLen with
      | none => .error .keyAgreement
      | some shared =>
        let ks := splitShared shared
        match authsym.Decrypt ks.1 ks.2 ct with
        | none => .error .authFailed
        | some out => .ok out

/-! ## The hap challenge/response helper (mirrors src/chapter5/hap/hap.go) -/

namespace hap

/-- Modelled from the spec: the Keccak-512 hash used by hap, an external
primitive; modelled as an opaque deterministic 64-byte digest, the only
property the helper relies on. -/
def hash (input : Bytes) : Bytes :=
  (List.range 64).map (fun i => (input.foldl (fun a x => (a * 31 + x + 1) % 256) i))

/-- Modelled from the spec: `subtle.ConstantTimeByteEq`, 1 when the two
bytes are equal and 0 otherwise. -/
def constantTimeByteEq (x y : Nat) : Nat := if x = y then 1 else 0

/-- The accumulated count of equal byte positions below `size`, as the
comparison loops of `hap.matchHash` and `hash.MatchPassword` compute. -/
def ctEqCount (a b : Bytes) (size : Nat) : Nat :=
  ((List.range size).map (fun i => constantTimeByteEq (a.getD i 0) (b.getD i 0))).sum

/-- `hap.Response`: the hash of password concatenated with challenge
(Go strings are byte strings). -/
def Response (password challenge : Bytes) : Bytes := hash (password ++ challenge)

/-- `hap.matchHash`: count equal bytes over the shorter length, require
the count to reach that length and the lengths to agree. -/
def matchHash (hash1 hash2 : Bytes) : Bool :=
  let size := min hash1.length hash2.length
  let matched := ctEqCount hash1 hash2 size
  decide (matched = size) && decide (hash1.length = hash2.length)

/-- `hap.Validate`: recompute the response and compare. -/
def Validate (password challenge : Bytes) (response : Bytes) : Bool :=
  matchHash (Response password challenge) response

end hap

/-! ## The hash password package (mirrors the source package hash) -/

namespace Hash

/-- `IterationCount` from the source. -/
def IterationCount : Nat := 16384

/-- `KeySize` from the source. -/
def KeySize : Nat := 32

/-- `PasswordKey`: a salt and the key derived from the password. -/
structure PasswordKey where
  Salt : Bytes
  Key : Bytes
  deriving DecidableEq

/-- Modelled from the spec: `pbkdf2.Key`, the external key-derivation
primitive; modelled as an opaque deterministic function of password,
salt, iteration count and key length, producing `keyLen` bytes. -/
def pbkdf2Key (password salt : Bytes) (iter keyLen : Nat) : Bytes :=
  (List.range keyLen).map (fun i =>
    ((password ++ 0 :: salt).foldl (fun a x => (a * 31 + x + 1) % 65536) (iter + i)) % 256)

/-- `DeriveKeyWithSalt`: hash the password with the given salt. -/
def DeriveKeyWithSalt (password : Bytes) (salt : Bytes) : PasswordKey :=
  ⟨salt, pbkdf2Key password salt IterationCount KeySize⟩

/-- `MatchPassword`: derive a key from the supplied password and the
stored salt, count matching bytes over the shorter key, and accept only
when the count reaches that length and the lengths agree (the source
returns false on a length mismatch, else the comparison result). -/
def MatchPassword (password : Bytes) (pk : PasswordKey) : Bool :=
  let newKey := DeriveKeyWithSalt password pk.Salt
  let size := min newKey.Key.length pk.Key.length
  let matched := hap.ctEqCount newKey.Key pk.Key size
  if newKey.Key.length ≠ pk.Key.length then false else decide (matched = size)

end Hash

/-! ## Codec lemmas -/

theorem decField_esc (a r : Bytes) :
    decField (escBytes a ++ 255 :: 0 :: r) = some (a, r) := by
  induction a with
  | nil => simp [escBytes, decField]
  | cons x a ih =>
    by_cases hx : x = 255
    · simp [escBytes, hx, decField, ih]
    · simp only [escBytes, if_neg hx, List.cons_append]
      rw [decField.eq_def]
      simp [hx, ih]

theorem UnmarshalPair_MarshalPair (a b : Bytes) :
    asn1.UnmarshalPair (asn1.MarshalPair a b) = some (a, b) := by
  have h2 : decField (escBytes b ++ 255 :: 0 :: ([] : Bytes)) = some (b, []) :=
    decField_esc b []
  simp only [asn1.MarshalPair, asn1.UnmarshalPair, decField_esc, h2]

theorem MarshalPair_inj {a b c d : Bytes} (h : asn1.MarshalPair a b = asn1.MarshalPair c d) :
    a = c ∧ b = d := by
  have h1 := UnmarshalPair_MarshalPair a b
  have h2 := UnmarshalPair_MarshalPair c d
  rw [h, h2] at h1
  simpa using h1.symm

/-! ## Cipher lemmas -/

theorem length_ctr (sk m : Bytes) : (authsym.ctr sk m).length = m.length := by
  simp [authsym.ctr, authsym.keystream]

theorem zipWith_xor_cancel :
    ∀ (m ks : List Nat), ks.length = m.length →
      List.zipWith Nat.xor (List.zipWith Nat.xor m ks) ks = m := by
  intro m
  induction m with
  | nil => intro ks _; simp
  | cons x m ih =>
    intro ks hks
    cases ks with
    | nil => simp at hks
    | cons y ks =>
      simp only [List.zipWith_cons_cons, List.cons.injEq]
      refine ⟨Nat.xor_cancel_right y x, ih ks (by simpa using hks)⟩

theorem ctr_ctr (sk m : Bytes) : authsym.ctr sk (authsym.ctr sk m) = m := by
  unfold authsym.ctr
  rw [show (List.zipWith Nat.xor m (authsym.keystream sk m.length)).length = m.length from by
    simp [authsym.keystream]]
  exact zipWith_xor_cancel m _ (by simp [authsym.keystream])

theorem length_macTag (mk body : Bytes) (h : 2 ≤ mk.length) :
    (authsym.macTag mk body).length = 2 + body.length := by
  simp [authsym.macTag, Nat.min_eq_left h]

theorem authsym_Decrypt_Encrypt (sk mk m : Bytes) (h : 2 ≤ mk.length) :
    authsym.Decrypt sk mk (authsym.Encrypt sk mk m) = some m := by
  have hbl : (authsym.ctr sk m).length = m.length := length_ctr sk m
  have hlen : (authsym.Encrypt sk mk m).length = m.length + (2 + m.length) := by
    simp [authsym.Encrypt, length_macTag mk _ h, hbl]
  unfold authsym.Decrypt
  rw [hlen]
  have hc : 2 ≤ m.length + (2 + m.length) ∧ (m.length + (2 + m.length) - 2) % 2 = 0 := by
    omega
  rw [if_pos hc]
  have hq : (m.length + (2 + m.length) - 2) / 2 = m.length := by omega
  rw [hq]
  have htake : (authsym.Encrypt sk mk m).take m.length = authsym.ctr sk m := by
    unfold authsym.Encrypt
    exact List.take_left' hbl
  have hdrop : (authsym.Encrypt sk mk m).drop m.length = authsym.macTag mk (authsym.ctr sk m) := by
    unfold authsym.Encrypt
    exact List.drop_left' hbl
  simp only [htake, hdrop]
  simp [ctr_ctr]

/-! ## Small numeric and list helpers -/

theorem xor_ne_self {x t : Nat} (h : t ≠ 0) : x ^^^ t ≠ x := by
  intro heq
  apply h
  have h2 : x ^^^ (x ^^^ t) = x ^^^ x := congrArg (x ^^^ ·) heq
  rwa [Nat.xor_cancel_left, Nat.xor_self] at h2

theorem two_pow_ne_zero (b : Nat) : (2 : Nat) ^ b ≠ 0 :=
  (Nat.pos_pow_of_pos b (by norm_num)).ne'

theorem xor_lt_256 {a b : Nat} (ha : a < 256) (hb : b < 256) : a ^^^ b < 256 := by
  have h : a ^^^ b < 2 ^ 8 := Nat.xor_lt_two_pow (by norm_num at ha ⊢; exact ha)
    (by norm_num at hb ⊢; exact hb)
  norm_num at h
  exact h

theorem getD_lt (l : Bytes) (i : Nat) (h : i < l.length) : l.getD i 0 = l[i] := by
  simp [List.getD_eq_getElem?_getD, List.getElem?_eq_getElem h]

theorem set_ne_self {l : Bytes} {i : Nat} {v : Nat} (h : i < l.length)
    (hv : v ≠ l[i]) : l.set i v ≠ l := by
  intro heq
  apply hv
  have h2 := congrArg (fun t : Bytes => t[i]?) heq
  simp only [List.getElem?_set_self', List.getElem?_eq_getElem h] at h2
  simpa using h2

theorem digits_ne {n n2 : Nat} (h1 : n < 65536) (h2 : n2 < 65536) (hne : n ≠ n2) :
    ([n % 256, n / 256 % 256] : Bytes) ≠ [n2 % 256, n2 / 256 % 256] := by
  intro h
  simp only [List.cons.injEq, and_true] at h
  omega

theorem GenerateKey_ge_one (r : Nat) : 1 ≤ (dhkam.GenerateKey r).1 := by
  simp [dhkam.GenerateKey]

theorem GenerateKey_le (r : Nat) : (dhkam.GenerateKey r).1 ≤ 255 := by
  simp only [dhkam.GenerateKey]
  omega

theorem GenerateKey_snd (r : Nat) : (dhkam.GenerateKey r).2 = r + 1 := rfl

theorem GenerateKey_ne_succ (r : Nat) :
    (dhkam.GenerateKey r).1 ≠ (dhkam.GenerateKey (r + 1)).1 := by
  simp only [dhkam.GenerateKey]
  omega

/-! ## Shared-secret expansion and split -/

theorem length_expandShared (n : Nat) : (dhkam.expandShared n 48).length = 48 := by
  simp [dhkam.expandShared]

theorem splitShared_expandShared_fst (n : Nat) :
    (splitShared (dhkam.expandShared n 48)).1 =
      ([n % 256, n / 256 % 256] ++ List.replicate 14 0 : Bytes) := by
  unfold splitShared dhkam.expandShared authsym.SymKeyLen
  exact List.take_left' (by simp)

theorem splitShared_expandShared_snd (n : Nat) :
    (splitShared (dhkam.expandShared n 48)).2 =
      ([n % 256, n / 256 % 256] ++ List.replicate 30 0 : Bytes) := by
  unfold splitShared dhkam.expandShared authsym.SymKeyLen
  rw [List.drop_left' (by simp)]

theorem macKey_take_two (n : Nat) :
    ((splitShared (dhkam.expandShared n 48)).2).take 2 = [n % 256, n / 256 % 256] := by
  rw [splitShared_expandShared_snd]
  rfl

theorem macKey_length (n : Nat) :
    ((splitShared (dhkam.expandShared n 48)).2).length = 32 := by
  rw [splitShared_expandShared_snd]
  simp

/-! ## Tamper rejection at the cipher layer -/

theorem Decrypt_set_ne (sk2 mk2 pre body : Bytes) (hpre : pre.length = 2) (i v : Nat)
    (hi : i < (body ++ (pre ++ body)).length)
    (hv : v ≠ (body ++ (pre ++ body)).getD i 0)
    (hmk : mk2.take 2 = pre) :
    authsym.Decrypt sk2 mk2 ((body ++ (pre ++ body)).set i v) = none := by
  have hL : (body ++ (pre ++ body)).length = body.length + (2 + body.length) := by
    simp [hpre]
  have hlenset : ((body ++ (pre ++ body)).set i v).length = body.length + (2 + body.length) := by
    rw [List.length_set, hL]
  unfold authsym.Decrypt
  rw [hlenset, if_pos (by omega)]
  rw [show (body.length + (2 + body.length) - 2) / 2 = body.length from by omega]
  by_cases hiL : i < body.length
  · have hset : (body ++ (pre ++ body)).set i v = body.set i v ++ (pre ++ body) :=
      List.set_append_left i v hiL
    rw [hset]
    have htk : (body.set i v ++ (pre ++ body)).take body.length = body.set i v :=
      List.take_left' (by rw [List.length_set])
    have hdr : (body.set i v ++ (pre ++ body)).drop body.length = pre ++ body :=
      List.drop_left' (by rw [List.length_set])
    simp only [htk, hdr]
    unfold authsym.macTag
    rw [hmk]
    rw [if_neg]
    intro heq
    have hb : body = body.set i v := List.append_cancel_left heq
    refine set_ne_self hiL ?_ hb.symm
    intro hveq
    apply hv
    rw [hveq, getD_lt _ _ hi]
    exact (List.getElem_append_left hiL).symm
  · have hiL2 : body.length ≤ i := Nat.le_of_not_lt hiL
    have hset : (body ++ (pre ++ body)).set i v = body ++ (pre ++ body).set (i - body.length) v :=
      List.set_append_right i v hiL2
    rw [hset]
    have htk : (body ++ (pre ++ body).set (i - body.length) v).take body.length = body :=
      List.take_left' rfl
    have hdr : (body ++ (pre ++ body).set (i - body.length) v).drop body.length =
        (pre ++ body).set (i - body.length) v :=
      List.drop_left' rfl
    simp only [htk, hdr]
    unfold authsym.macTag
    rw [hmk]
    rw [if_neg]
    intro heq
    have hit : i - body.length < (pre ++ body).length := by
      rw [hL] at hi
      simp only [List.length_append, hpre]
      omega
    refine set_ne_self hit ?_ heq
    intro hveq
    apply hv
    rw [hveq, getD_lt _ _ hi]
    exact (List.getElem_append_right hiL2).symm

theorem authsym_Decrypt_flip (sk mk m : Bytes) (h2 : 2 ≤ mk.length) (i b : Nat)
    (hi : i < (authsym.Encrypt sk mk m).length) :
    authsym.Decrypt sk mk (flipBit (authsym.Encrypt sk mk m) i b) = none := by
  have hpre : (mk.take 2).length = 2 := by simp [Nat.min_eq_left h2]
  have hEnc : authsym.Encrypt sk mk m =
      authsym.ctr sk m ++ (mk.take 2 ++ authsym.ctr sk m) := by
    simp [authsym.Encrypt, authsym.macTag]
  have hi2 : i < (authsym.ctr sk m ++ (mk.take 2 ++ authsym.ctr sk m)).length := by
    rw [← hEnc]; exact hi
  have hflip : flipBit (authsym.Encrypt sk mk m) i b =
      (authsym.ctr sk m ++ (mk.take 2 ++ authsym.ctr sk m)).set i
        ((authsym.ctr sk m ++ (mk.take 2 ++ authsym.ctr sk m)).getD i 0 ^^^ 2 ^ b) := by
    rw [flipBit, hEnc]
  rw [hflip]
  exact Decrypt_set_ne sk mk (mk.take 2) (authsym.ctr sk m) hpre i _ hi2
    (xor_ne_self (two_pow_ne_zero b)) rfl

theorem authsym_Decrypt_wrong_mac (sk sk2 mk mk2 m : Bytes) (h2 : 2 ≤ mk.length)
    (h2b : 2 ≤ mk2.length) (hne : mk.take 2 ≠ mk2.take 2) :
    authsym.Decrypt sk2 mk2 (authsym.Encrypt sk mk m) = none := by
  have hbl : (authsym.ctr sk m).length = m.length := length_ctr sk m
  have hlen : (authsym.Encrypt sk mk m).length = m.length + (2 + m.length) := by
    simp [authsym.Encrypt, length_macTag mk _ h2, hbl]
  unfold authsym.Decrypt
  rw [hlen]
  rw [if_pos (by omega)]
  have hq : (m.length + (2 + m.length) - 2) / 2 = m.length := by omega
  rw [hq]
  have htake : (authsym.Encrypt sk mk m).take m.length = authsym.ctr sk m := by
    unfold authsym.Encrypt
    exact List.take_left' hbl
  have hdrop : (authsym.Encrypt sk mk m).drop m.length = authsym.macTag mk (authsym.ctr sk m) := by
    unfold authsym.Encrypt
    exact List.drop_left' hbl
  simp only [htake, hdrop]
  rw [if_neg]
  intro heq
  apply hne
  unfold authsym.macTag at heq
  exact (List.append_inj heq (by
    simp [Nat.min_eq_left h2, Nat.min_eq_left h2b])).1

/-! ## Protocol-level inversion lemmas -/

theorem NewSessionKey_some_inv {env : PrimEnv} {id : IdentityKey} {r : Nat}
    {sk : SessionKey} {rn : Nat}
    (h : IdentityKey.NewSessionKey env id r = some (sk, rn)) :
    sk.key = (dhkam.GenerateKey r).1 ∧
    sk.signedKey = asn1.MarshalPair (dhkam.Export (dhkam.GenerateKey r).1)
      (pks.Sign id.key (dhkam.Export (dhkam.GenerateKey r).1)) ∧
    sk.peer = none ∧ rn = r + 1 := by
  unfold IdentityKey.NewSessionKey at h
  cases hg : env.dhGenOk <;> rw [hg] at h <;> simp at h
  cases hs : env.signOk <;> rw [hs] at h <;> simp at h
  cases hm : env.marshalOk <;> rw [hm] at h <;> simp at h
  obtain ⟨h1, h2⟩ := h
  rw [← h1]
  simp [GenerateKey_snd] at h2
  exact ⟨rfl, rfl, rfl, h2.symm⟩

theorem ImportPeerIdentity_Public (id : IdentityKey) :
    ImportPeerIdentity id.Public = .ok id.key := by
  unfold ImportPeerIdentity IdentityKey.Public marshalPKIX parsePKIX
  have hall : (List.replicate id.key 1).all (· = 1) = true := by
    simp [List.all_eq_true]
  simp [rsaTag, hall]

theorem PeerSessionKey_of_valid (skey : SessionKey) (idk k : Nat)
    (hk1 : 1 ≤ k) (hk255 : k ≤ 255) :
    SessionKey.PeerSessionKey skey idk
      (asn1.MarshalPair (dhkam.Export k) (pks.Sign idk (dhkam.Export k))) =
      (.ok (), { skey with peer := some k }) := by
  unfold SessionKey.PeerSessionKey
  rw [UnmarshalPair_MarshalPair]
  simp [pks.Verify, dhkam.ImportPublic, dhkam.Export, hk1, hk255]

theorem Encrypt_ok_inv {env : PrimEnv} {skey : SessionKey} {m : Bytes} {r : Nat}
    {e : Bytes} {rn : Nat}
    (h : SessionKey.Encrypt env skey m r = .ok (e, rn)) :
    ∃ v, skey.peer = some v ∧ v ≠ 0 ∧ rn = r + 1 ∧
      e = asn1.MarshalPair (dhkam.Export (dhkam.GenerateKey r).1)
        (authsym.Encrypt
          (splitShared (dhkam.expandShared ((dhkam.GenerateKey r).1 * v) 48)).1
          (splitShared (dhkam.expandShared ((dhkam.GenerateKey r).1 * v) 48)).2 m) := by
  unfold SessionKey.Encrypt at h
  cases hg : env.dhGenOk <;> rw [hg] at h <;> simp at h
  cases hp : skey.peer with
  | none => rw [hp] at h; simp [dhkam.SharedKey] at h
  | some v =>
    rw [hp] at h
    by_cases hv : v = 0
    · rw [hv] at h; simp [dhkam.SharedKey] at h
    · refine ⟨v, rfl, hv, ?_⟩
      simp only [dhkam.SharedKey, if_neg hv] at h
      cases hs : env.symEncOk <;> rw [hs] at h <;> simp at h
      cases hm : env.marshalOk <;> rw [hm] at h <;> simp at h
      unfold sharedKeyLen at h
      rw [GenerateKey_snd] at h
      exact ⟨h.2.symm, h.1.symm⟩

theorem Decrypt_of_envelope (skB : SessionKey) (eph v : Nat) (m : Bytes)
    (heph1 : 1 ≤ eph) (heph255 : eph ≤ 255) (hv : v = skB.key) :
    SessionKey.Decrypt skB
      (asn1.MarshalPair (dhkam.Export eph)
        (authsym.Encrypt (splitShared (dhkam.expandShared (eph * v) 48)).1
          (splitShared (dhkam.expandShared (eph * v) 48)).2 m)) = .ok m := by
  have hephnz : eph ≠ 0 := by omega
  have himp : dhkam.ImportPublic (dhkam.Export eph) = some eph := by
    simp [dhkam.Export, dhkam.ImportPublic, heph1, heph255]
  have hsh : dhkam.SharedKey skB.key (some eph) sharedKeyLen =
      some (dhkam.expandShared (eph * v) 48) := by
    simp only [dhkam.SharedKey, sharedKeyLen]
    rw [if_neg hephnz, hv, Nat.mul_comm]
  have hdec : authsym.Decrypt (splitShared (dhkam.expandShared (eph * v) 48)).1
      (splitShared (dhkam.expandShared (eph * v) 48)).2
      (authsym.Encrypt (splitShared (dhkam.expandShared (eph * v) 48)).1
        (splitShared (dhkam.expandShared (eph * v) 48)).2 m) = some m :=
    authsym_Decrypt_Encrypt _ _ _ (by rw [macKey_length]; omega)
  unfold SessionKey.Decrypt
  simp only [UnmarshalPair_MarshalPair, himp, hsh, hdec]

theorem Decrypt_of_Encrypt (env : PrimEnv) (skA skB : SessionKey) (m e : Bytes)
    (r rn : Nat)
    (hpeer : skA.peer = some skB.key)
    (henc : SessionKey.Encrypt env skA m r = .ok (e, rn)) :
    SessionKey.Decrypt skB e = .ok m := by
  obtain ⟨v, hp, hvnz, hrn, he⟩ := Encrypt_ok_inv henc
  rw [hpeer] at hp
  have hv : v = skB.key := by
    injection hp.symm
  rw [he]
  exact Decrypt_of_envelope skB (dhkam.GenerateKey r).1 v m
    (GenerateKey_ge_one r) (GenerateKey_le r) hv

theorem Decrypt_flip_ct (skb : SessionKey) (eph x : Nat) (m : Bytes) (i b : Nat)
    (heph1 : 1 ≤ eph) (heph255 : eph ≤ 255) (hkb : skb.key = x)
    (hi : i < (authsym.Encrypt (splitShared (dhkam.expandShared (eph * x) 48)).1
      (splitShared (dhkam.expandShared (eph * x) 48)).2 m).length) :
    SessionKey.Decrypt skb (asn1.MarshalPair (dhkam.Export eph)
      (flipBit (authsym.Encrypt (splitShared (dhkam.expandShared (eph * x) 48)).1
        (splitShared (dhkam.expandShared (eph * x) 48)).2 m) i b)) = .error .authFailed := by
  have hephnz : eph ≠ 0 := by omega
  have himp : dhkam.ImportPublic (dhkam.Export eph) = some eph := by
    simp [dhkam.Export, dhkam.ImportPublic, heph1, heph255]
  have hsh : dhkam.SharedKey skb.key (some eph) sharedKeyLen =
      some (dhkam.expandShared (eph * x) 48) := by
    simp only [dhkam.SharedKey, sharedKeyLen]
    rw [if_neg hephnz, hkb, Nat.mul_comm]
  have hdec : authsym.Decrypt (splitShared (dhkam.expandShared (eph * x) 48)).1
      (splitShared (dhkam.expandShared (eph * x) 48)).2
      (flipBit (authsym.Encrypt (splitShared (dhkam.expandShared (eph * x) 48)).1
        (splitShared (dhkam.expandShared (eph * x) 48)).2 m) i b) = none :=
    authsym_Decrypt_flip _ _ _ (by rw [macKey_length]; omega) i b hi
  unfold SessionKey.Decrypt
  simp only [UnmarshalPair_MarshalPair, himp, hsh, hdec]

theorem Decrypt_wrong_pub (skb : SessionKey) (eph e2 x : Nat) (m : Bytes)
    (he21 : 1 ≤ e2) (he2255 : e2 ≤ 255)
    (hne : eph * x ≠ x * e2)
    (hlt1 : eph * x < 65536) (hlt2 : x * e2 < 65536)
    (hkb : skb.key = x) :
    SessionKey.Decrypt skb (asn1.MarshalPair (dhkam.Export e2)
      (authsym.Encrypt (splitShared (dhkam.expandShared (eph * x) 48)).1
        (splitShared (dhkam.expandShared (eph * x) 48)).2 m)) = .error .authFailed := by
  have he2nz : e2 ≠ 0 := by omega
  have himp : dhkam.ImportPublic (dhkam.Export e2) = some e2 := by
    simp [dhkam.Export, dhkam.ImportPublic, he21, he2255]
  have hsh : dhkam.SharedKey skb.key (some e2) sharedKeyLen =
      some (dhkam.expandShared (x * e2) 48) := by
    simp only [dhkam.SharedKey, sharedKeyLen]
    rw [if_neg he2nz, hkb]
  have hmkne : ((splitShared (dhkam.expandShared (eph * x) 48)).2).take 2 ≠
      ((splitShared (dhkam.expandShared (x * e2) 48)).2).take 2 := by
    rw [macKey_take_two, macKey_take_two]
    exact digits_ne hlt1 hlt2 hne
  have hdec : authsym.Decrypt (splitShared (dhkam.expandShared (x * e2) 48)).1
      (splitShared (dhkam.expandShared (x * e2) 48)).2
      (authsym.Encrypt (splitShared (dhkam.expandShared (eph * x) 48)).1
        (splitShared (dhkam.expandShared (eph * x) 48)).2 m) = none :=
    authsym_Decrypt_wrong_mac _ _ _ _ _ (by rw [macKey_length]; omega)
      (by rw [macKey_length]; omega) hmkne
  unfold SessionKey.Decrypt
  simp only [UnmarshalPair_MarshalPair, himp, hsh, hdec]

/-! ## Claim theorems -/

/-- C1: for every message m and every pair of sessions A and B that have
completed a mutual handshake (each has successfully run PeerSessionKey on
the export of the other, after importing the peer identity), B.Decrypt of
the envelope A.Encrypt(m) produces returns m, and symmetrically A.Decrypt
of B.Encrypt(m) returns m. -/
theorem mutual_handshake_roundtrip
    (ia ib : IdentityKey) (envA envB envE1 envE2 : PrimEnv)
    (ra rb rm1 rm2 : Nat) (m : Bytes)
    (sa0 sb0 sa sb : SessionKey) (ka kb : Nat)
    (ta tb r1 r2 : Nat) (e1 e2 : Bytes)
    (hA0 : IdentityKey.NewSessionKey envA ia ra = some (sa0, ta))
    (hB0 : IdentityKey.NewSessionKey envB ib rb = some (sb0, tb))
    (hka : ImportPeerIdentity ia.Public = .ok ka)
    (hkb : ImportPeerIdentity ib.Public = .ok kb)
    (hA : SessionKey.PeerSessionKey sa0 kb sb0.Public = (.ok (), sa))
    (hB : SessionKey.PeerSessionKey sb0 ka sa0.Public = (.ok (), sb))
    (hE1 : SessionKey.Encrypt envE1 sa m rm1 = .ok (e1, r1))
    (hE2 : SessionKey.Encrypt envE2 sb m rm2 = .ok (e2, r2)) :
    SessionKey.Decrypt sb e1 = .ok m ∧ SessionKey.Decrypt sa e2 = .ok m := by
  obtain ⟨hak, has, hap, -⟩ := NewSessionKey_some_inv hA0
  obtain ⟨hbk, hbs, hbp, -⟩ := NewSessionKey_some_inv hB0
  rw [ImportPeerIdentity_Public] at hka hkb
  have hka2 : ka = ia.key := by injection hka with h; exact h.symm
  have hkb2 : kb = ib.key := by injection hkb with h; exact h.symm
  have hpubA : sa0.Public = asn1.MarshalPair (dhkam.Export (dhkam.GenerateKey ra).1)
      (pks.Sign ia.key (dhkam.Export (dhkam.GenerateKey ra).1)) := by
    unfold SessionKey.Public
    rw [has]
  have hpubB : sb0.Public = asn1.MarshalPair (dhkam.Export (dhkam.GenerateKey rb).1)
      (pks.Sign ib.key (dhkam.Export (dhkam.GenerateKey rb).1)) := by
    unfold SessionKey.Public
    rw [hbs]
  rw [hkb2, hpubB, PeerSessionKey_of_valid sa0 ib.key (dhkam.GenerateKey rb).1
    (GenerateKey_ge_one rb) (GenerateKey_le rb)] at hA
  rw [hka2, hpubA, PeerSessionKey_of_valid sb0 ia.key (dhkam.GenerateKey ra).1
    (GenerateKey_ge_one ra) (GenerateKey_le ra)] at hB
  have hsa : sa = { sa0 with peer := some (dhkam.GenerateKey rb).1 } := by
    have h := congrArg Prod.snd hA
    exact h.symm
  have hsb : sb = { sb0 with peer := some (dhkam.GenerateKey ra).1 } := by
    have h := congrArg Prod.snd hB
    exact h.symm
  have hsa_peer : sa.peer = some sb.key := by
    rw [hsa, hsb]
    show some (dhkam.GenerateKey rb).1 = some sb0.key
    rw [hbk]
  have hsb_peer : sb.peer = some sa.key := by
    rw [hsa, hsb]
    show some (dhkam.GenerateKey ra).1 = some sa0.key
    rw [hak]
  exact ⟨Decrypt_of_Encrypt envE1 sa sb m e1 rm1 r1 hsa_peer hE1,
    Decrypt_of_Encrypt envE2 sb sa m e2 rm2 r2 hsb_peer hE2⟩

/-- C2: for every envelope produced by Encrypt toward a handshake-complete
peer and every single-bit modification of the ciphertext field or of the
embedded ephemeral public-value field, Decrypt by the intended receiver
returns AuthenticationFailedError or KeyImportError, never a successfully
decrypted plaintext. -/
theorem decrypt_tamper_rejects (env : PrimEnv) (sa skb : SessionKey) (x : Nat) (m : Bytes)
    (r rn : Nat) (e p c : Bytes)
    (hpeer : sa.peer = some x) (hx1 : 1 ≤ x) (hx255 : x ≤ 255) (hkb : skb.key = x)
    (henc : SessionKey.Encrypt env sa m r = .ok (e, rn))
    (hdp : asn1.UnmarshalPair e = some (p, c)) :
    (∀ i b, i < c.length → b < 8 →
       SessionKey.Decrypt skb (asn1.MarshalPair p (flipBit c i b)) = .error .authFailed ∨
       SessionKey.Decrypt skb (asn1.MarshalPair p (flipBit c i b)) = .error .keyImport) ∧
    (∀ i b, i < p.length → b < 8 →
       SessionKey.Decrypt skb (asn1.MarshalPair (flipBit p i b) c) = .error .authFailed ∨
       SessionKey.Decrypt skb (asn1.MarshalPair (flipBit p i b) c) = .error .keyImport) := by
  obtain ⟨v, hp, hvnz, hrn, he⟩ := Encrypt_ok_inv henc
  rw [hpeer] at hp
  have hv : v = x := by injection hp.symm
  rw [hv] at he
  rw [he, UnmarshalPair_MarshalPair] at hdp
  have hpe : p = dhkam.Export (dhkam.GenerateKey r).1 := by
    injection hdp with h
    exact (congrArg Prod.fst h).symm
  have hce : c = authsym.Encrypt
      (splitShared (dhkam.expandShared ((dhkam.GenerateKey r).1 * x) 48)).1
      (splitShared (dhkam.expandShared ((dhkam.GenerateKey r).1 * x) 48)).2 m := by
    injection hdp with h
    exact (congrArg Prod.snd h).symm
  have heph1 : 1 ≤ (dhkam.GenerateKey r).1 := GenerateKey_ge_one r
  have heph255 : (dhkam.GenerateKey r).1 ≤ 255 := GenerateKey_le r
  constructor
  · intro i b hi hb
    left
    rw [hpe, hce]
    refine Decrypt_flip_ct skb (dhkam.GenerateKey r).1 x m i b heph1 heph255 hkb ?_
    rw [← hce]
    exact hi
  · intro i b hi hb
    have hp1 : p.length = 1 := by rw [hpe]; rfl
    have hi0 : i = 0 := by omega
    have hflip : flipBit p i b = [(dhkam.GenerateKey r).1 ^^^ 2 ^ b] := by
      rw [hi0, hpe]
      rfl
    set e2 := (dhkam.GenerateKey r).1 ^^^ 2 ^ b with he2
    have he2ne : e2 ≠ (dhkam.GenerateKey r).1 := xor_ne_self (two_pow_ne_zero b)
    have he2lt : e2 < 256 := by
      refine xor_lt_256 (by omega) ?_
      calc (2 : Nat) ^ b ≤ 2 ^ 7 := Nat.pow_le_pow_right (by norm_num) (by omega)
        _ < 256 := by norm_num
    by_cases he2z : e2 = 0
    · right
      rw [hflip, hce]
      unfold SessionKey.Decrypt
      have himp : dhkam.ImportPublic [e2] = none := by
        rw [he2z]
        simp [dhkam.ImportPublic]
      simp only [UnmarshalPair_MarshalPair, himp]
    · left
      rw [hflip, hce]
      have hmul : (dhkam.GenerateKey r).1 * x ≠ x * e2 := by
        rw [Nat.mul_comm (dhkam.GenerateKey r).1 x]
        intro hctr
        exact he2ne.symm (Nat.eq_of_mul_eq_mul_left (by omega) hctr)
      have hexp : dhkam.Export e2 = [e2] := rfl
      rw [← hexp]
      exact Decrypt_wrong_pub skb (dhkam.GenerateKey r).1 e2 x m (by omega) (by omega)
        hmul (by nlinarith) (by nlinarith) hkb


/-- C3: for every session and every input whose structure decodes but
whose signature does not verify against the supplied peer identity,
PeerSessionKey returns SignatureInvalidError without importing the
enclosed agreement value and without touching the session state. -/
theorem peerSessionKey_rejects_bad_signature (skey : SessionKey) (peer : Nat)
    (session pub sig : Bytes)
    (hdec : asn1.UnmarshalPair session = some (pub, sig))
    (hver : pks.Verify peer pub sig = false) :
    SessionKey.PeerSessionKey skey peer session = (.error .signatureInvalid, skey) := by
  unfold SessionKey.PeerSessionKey
  rw [hdec]
  simp [hver]

/-- C4: Encrypt on a session whose peer field is unset fails
deterministically with an error (it never produces ciphertext; the model
is a total function, so no panic is possible). -/
theorem encrypt_unbound_fails (env : PrimEnv) (skey : SessionKey) (m : Bytes) (r : Nat)
    (h : skey.peer = none) :
    SessionKey.Encrypt env skey m r = .error .keyGeneration ∨
    SessionKey.Encrypt env skey m r = .error .keyAgreement := by
  unfold SessionKey.Encrypt
  cases hg : env.dhGenOk
  · left
    simp
  · right
    rw [h]
    simp [dhkam.SharedKey]

/-- C5: the source of ImportPeerIdentity performs the interface type
assertion with no ok-check, so a well-formed encoding of a non-RSA public
key makes it panic instead of failing with a malformed-identity error;
a malformed encoding returns nil as the claim says. -/
theorem importPeerIdentity_wrong_type_panics :
    ImportPeerIdentity (marshalPKIX otherTag 5) = .panicked ∧
    ImportPeerIdentity [7, 7] = .retNil := by decide

/-- C6: two Encrypt calls with identical plaintext and identical peer
state (the second continuing the randomness stream of the first) produce
different envelope encodings with distinct ephemeral public values. -/
theorem encrypt_nondeterministic (env1 env2 : PrimEnv) (skey : SessionKey) (m : Bytes)
    (r r1 r2 : Nat) (e1 e2 : Bytes)
    (h1 : SessionKey.Encrypt env1 skey m r = .ok (e1, r1))
    (h2 : SessionKey.Encrypt env2 skey m r1 = .ok (e2, r2)) :
    e1 ≠ e2 ∧ ∀ p1 c1 p2 c2, asn1.UnmarshalPair e1 = some (p1, c1) →
      asn1.UnmarshalPair e2 = some (p2, c2) → p1 ≠ p2 := by
  obtain ⟨v1, hp1, hnz1, hr1, he1⟩ := Encrypt_ok_inv h1
  obtain ⟨v2, hp2, hnz2, hr2, he2⟩ := Encrypt_ok_inv h2
  subst hr1
  have hpub : dhkam.Export (dhkam.GenerateKey r).1 ≠
      dhkam.Export (dhkam.GenerateKey (r + 1)).1 := by
    simp only [dhkam.Export, ne_eq, List.cons.injEq, and_true]
    exact GenerateKey_ne_succ r
  have hsnd : ∀ {p1 c1 p2 c2 : Bytes}, asn1.UnmarshalPair e1 = some (p1, c1) →
      asn1.UnmarshalPair e2 = some (p2, c2) → p1 ≠ p2 := by
    intro p1 c1 p2 c2 hu1 hu2
    rw [he1, UnmarshalPair_MarshalPair] at hu1
    rw [he2, UnmarshalPair_MarshalPair] at hu2
    simp only [Option.some.injEq, Prod.mk.injEq] at hu1 hu2
    rw [← hu1.1, ← hu2.1]
    exact hpub
  refine ⟨?_, fun p1 c1 p2 c2 hu1 hu2 => hsnd hu1 hu2⟩
  intro he
  rw [he1, he2] at he
  exact hpub (MarshalPair_inj he).1

/-- C7 (amended): NewSessionKey either returns a fully initialized
session (generated key, signed and marshalled export, peer unset,
advanced randomness state) or fails by returning nil; it never returns a
partially initialized session. -/
theorem newSessionKey_all_or_nothing (env : PrimEnv) (id : IdentityKey) (r : Nat) :
    IdentityKey.NewSessionKey env id r = none ∨
    ∃ sk : SessionKey, IdentityKey.NewSessionKey env id r = some (sk, r + 1) ∧
      sk.key = (dhkam.GenerateKey r).1 ∧
      sk.signedKey = asn1.MarshalPair (dhkam.Export (dhkam.GenerateKey r).1)
        (pks.Sign id.key (dhkam.Export (dhkam.GenerateKey r).1)) ∧
      sk.peer = none := by
  cases hres : IdentityKey.NewSessionKey env id r with
  | none => exact Or.inl rfl
  | some p =>
    right
    obtain ⟨sk, rn⟩ := p
    obtain ⟨hk, hs, hp, hr⟩ := NewSessionKey_some_inv hres
    exact ⟨sk, by rw [hr], hk, hs, hp⟩

/-- C7 counterexample to the claim as stated: on an underlying primitive
failure the source returns plain nil, so two different failures
(key generation versus signing) are indistinguishable to the caller; no
typed KeyGenerationError or SigningError value is returned. -/
theorem newSessionKey_failure_returns_nil :
    IdentityKey.NewSessionKey ⟨false, true, true, true⟩ ⟨7⟩ 0 = none ∧
    IdentityKey.NewSessionKey ⟨true, false, true, true⟩ ⟨7⟩ 0 = none := by decide

/-- C8: the split of the fixed-length shared secret used by Encrypt and
Decrypt (both call splitShared) yields a leading confidentiality segment
of length SymKeyLen and a trailing integrity segment of length
sharedKeyLen - SymKeyLen, and the two segments partition the secret
exactly, with no gap and no overlap. -/
theorem splitShared_partitions (s : Bytes) (h : s.length = sharedKeyLen) :
    (splitShared s).1.length = authsym.SymKeyLen ∧
    (splitShared s).2.length = sharedKeyLen - authsym.SymKeyLen ∧
    (splitShared s).1 ++ (splitShared s).2 = s := by
  unfold splitShared
  refine ⟨?_, ?_, List.take_append_drop _ _⟩
  · rw [List.length_take, h]
    decide
  · rw [List.length_drop, h]

/-! ## Counting lemmas for the constant-time comparisons -/

theorem ctEqCount_succ (a b : Bytes) (s : Nat) :
    hap.ctEqCount a b (s + 1) =
      hap.ctEqCount a b s + hap.constantTimeByteEq (a.getD s 0) (b.getD s 0) := by
  unfold hap.ctEqCount
  rw [List.range_succ]
  simp

theorem ctEqCount_le (a b : Bytes) (s : Nat) : hap.ctEqCount a b s ≤ s := by
  induction s with
  | zero => simp [hap.ctEqCount]
  | succ s ih =>
    rw [ctEqCount_succ]
    have hb : hap.constantTimeByteEq (a.getD s 0) (b.getD s 0) ≤ 1 := by
      unfold hap.constantTimeByteEq
      split <;> omega
    omega

theorem ctEqCount_eq_iff (a b : Bytes) (s : Nat) :
    hap.ctEqCount a b s = s ↔ ∀ i, i < s → a.getD i 0 = b.getD i 0 := by
  induction s with
  | zero => simp [hap.ctEqCount]
  | succ s ih =>
    rw [ctEqCount_succ]
    have hle := ctEqCount_le a b s
    have hble : hap.constantTimeByteEq (a.getD s 0) (b.getD s 0) ≤ 1 := by
      unfold hap.constantTimeByteEq
      split <;> omega
    constructor
    · intro h
      have h1 : hap.ctEqCount a b s = s := by omega
      have h2 : hap.constantTimeByteEq (a.getD s 0) (b.getD s 0) = 1 := by omega
      intro i hi
      rcases Nat.lt_succ_iff_lt_or_eq.mp hi with hlt | heq
      · exact (ih.mp h1) i hlt
      · subst heq
        unfold hap.constantTimeByteEq at h2
        by_cases hx : a.getD i 0 = b.getD i 0
        · exact hx
        · rw [if_neg hx] at h2
          omega
    · intro h
      have h1 : hap.ctEqCount a b s = s := ih.mpr (fun i hi => h i (by omega))
      have h2 : hap.constantTimeByteEq (a.getD s 0) (b.getD s 0) = 1 := by
        unfold hap.constantTimeByteEq
        rw [if_pos (h s (by omega))]
      omega

theorem ctEqCount_self (a : Bytes) (s : Nat) : hap.ctEqCount a a s = s :=
  (ctEqCount_eq_iff a a s).mpr (fun _ _ => rfl)

theorem bytes_eq_of_len_count {a b : Bytes} (hlen : a.length = b.length)
    (hcnt : hap.ctEqCount a b a.length = a.length) : a = b := by
  apply List.ext_getElem hlen
  intro i h1 h2
  have hg := (ctEqCount_eq_iff a b a.length).mp hcnt i h1
  rwa [getD_lt a i h1, getD_lt b i h2] at hg

theorem matchHash_iff (h1 h2 : Bytes) : hap.matchHash h1 h2 = true ↔ h1 = h2 := by
  unfold hap.matchHash
  simp only [Bool.and_eq_true, decide_eq_true_eq]
  constructor
  · rintro ⟨hcnt, hlen⟩
    have hmin : min h1.length h2.length = h1.length := Nat.min_eq_left (le_of_eq hlen)
    rw [hmin] at hcnt
    exact bytes_eq_of_len_count hlen hcnt
  · rintro rfl
    refine ⟨?_, rfl⟩
    rw [Nat.min_self]
    exact ctEqCount_self h1 h1.length

/-- C9: Validate accepts exactly the response computed from the same
password and challenge, and matchHash returns true precisely when the
two byte strings have equal length and are byte-for-byte equal. -/
theorem validate_response_roundtrip :
    (∀ p c : Bytes, hap.Validate p c (hap.Response p c) = true) ∧
    (∀ h1 h2 : Bytes, hap.matchHash h1 h2 = true ↔ h1 = h2) :=
  ⟨fun _ _ => (matchHash_iff _ _).mpr rfl, matchHash_iff⟩

/-- C10: MatchPassword accepts the key derived from the same password and
salt, and accepts only when the re-derived key has the same length as and
is byte-for-byte equal to the stored key. -/
theorem matchPassword_roundtrip_and_exact :
    (∀ p s : Bytes, Hash.MatchPassword p (Hash.DeriveKeyWithSalt p s) = true) ∧
    (∀ (p : Bytes) (pk : Hash.PasswordKey), Hash.MatchPassword p pk = true →
      (Hash.DeriveKeyWithSalt p pk.Salt).Key.length = pk.Key.length ∧
      (Hash.DeriveKeyWithSalt p pk.Salt).Key = pk.Key) := by
  constructor
  · intro p s
    unfold Hash.MatchPassword
    simp [Hash.DeriveKeyWithSalt, Nat.min_self, ctEqCount_self]
  · intro p pk h
    unfold Hash.MatchPassword at h
    by_cases hlen : (Hash.DeriveKeyWithSalt p pk.Salt).Key.length = pk.Key.length
    · rw [if_neg (by simpa using hlen)] at h
      have hmin : min (Hash.DeriveKeyWithSalt p pk.Salt).Key.length pk.Key.length =
          (Hash.DeriveKeyWithSalt p pk.Salt).Key.length := Nat.min_eq_left (le_of_eq hlen)
      rw [hmin] at h
      exact ⟨hlen, bytes_eq_of_len_count hlen (by simpa using h)⟩
    · rw [if_pos (by simpa using hlen)] at h
      simp at h

/-! ## Witnesses: the claim theorems applied at concrete inputs -/

theorem mutual_handshake_roundtrip_witness :
    SessionKey.Decrypt ⟨2, asn1.MarshalPair [2] (pks.Sign 4 [2]), some 1⟩
      (asn1.MarshalPair [11] (authsym.Encrypt (splitShared (dhkam.expandShared 22 48)).1
        (splitShared (dhkam.expandShared 22 48)).2 [104, 105])) = .ok [104, 105] ∧
    SessionKey.Decrypt ⟨1, asn1.MarshalPair [1] (pks.Sign 3 [1]), some 2⟩
      (asn1.MarshalPair [21] (authsym.Encrypt (splitShared (dhkam.expandShared 21 48)).1
        (splitShared (dhkam.expandShared 21 48)).2 [104, 105])) = .ok [104, 105] :=
  mutual_handshake_roundtrip ⟨3⟩ ⟨4⟩ envOK envOK envOK envOK 0 1 10 20 [104, 105]
    ⟨1, asn1.MarshalPair [1] (pks.Sign 3 [1]), none⟩
    ⟨2, asn1.MarshalPair [2] (pks.Sign 4 [2]), none⟩
    ⟨1, asn1.MarshalPair [1] (pks.Sign 3 [1]), some 2⟩
    ⟨2, asn1.MarshalPair [2] (pks.Sign 4 [2]), some 1⟩
    3 4 1 2 11 21
    (asn1.MarshalPair [11] (authsym.Encrypt (splitShared (dhkam.expandShared 22 48)).1
      (splitShared (dhkam.expandShared 22 48)).2 [104, 105]))
    (asn1.MarshalPair [21] (authsym.Encrypt (splitShared (dhkam.expandShared 21 48)).1
      (splitShared (dhkam.expandShared 21 48)).2 [104, 105]))
    (by decide) (by decide) (by decide) (by decide)
    (by decide) (by decide) (by decide) (by decide)

theorem decrypt_tamper_rejects_witness :
    (SessionKey.Decrypt ⟨7, [], none⟩
      (asn1.MarshalPair [1] (flipBit (authsym.Encrypt
        (splitShared (dhkam.expandShared 7 48)).1
        (splitShared (dhkam.expandShared 7 48)).2 [100]) 0 0)) = .error .authFailed ∨
     SessionKey.Decrypt ⟨7, [], none⟩
      (asn1.MarshalPair [1] (flipBit (authsym.Encrypt
        (splitShared (dhkam.expandShared 7 48)).1
        (splitShared (dhkam.expandShared 7 48)).2 [100]) 0 0)) = .error .keyImport) ∧
    (SessionKey.Decrypt ⟨7, [], none⟩
      (asn1.MarshalPair (flipBit [1] 0 0) (authsym.Encrypt
        (splitShared (dhkam.expandShared 7 48)).1
        (splitShared (dhkam.expandShared 7 48)).2 [100])) = .error .authFailed ∨
     SessionKey.Decrypt ⟨7, [], none⟩
      (asn1.MarshalPair (flipBit [1] 0 0) (authsym.Encrypt
        (splitShared (dhkam.expandShared 7 48)).1
        (splitShared (dhkam.expandShared 7 48)).2 [100])) = .error .keyImport) :=
  have h := decrypt_tamper_rejects envOK ⟨5, [], some 7⟩ ⟨7, [], none⟩ 7 [100] 0 1
    (asn1.MarshalPair [1] (authsym.Encrypt (splitShared (dhkam.expandShared 7 48)).1
      (splitShared (dhkam.expandShared 7 48)).2 [100]))
    [1]
    (authsym.Encrypt (splitShared (dhkam.expandShared 7 48)).1
      (splitShared (dhkam.expandShared 7 48)).2 [100])
    rfl (by decide) (by decide) rfl (by decide) (by decide)
  ⟨h.1 0 0 (by decide) (by decide), h.2 0 0 (by decide) (by decide)⟩

theorem peerSessionKey_rejects_bad_signature_witness :
    SessionKey.PeerSessionKey ⟨5, [], none⟩ 9 (asn1.MarshalPair [3] [9, 9]) =
      (.error .signatureInvalid, ⟨5, [], none⟩) :=
  peerSessionKey_rejects_bad_signature ⟨5, [], none⟩ 9
    (asn1.MarshalPair [3] [9, 9]) [3] [9, 9] (by decide) (by decide)

theorem encrypt_unbound_fails_witness :
    SessionKey.Encrypt envOK ⟨5, [], none⟩ [1, 2] 0 = .error .keyGeneration ∨
    SessionKey.Encrypt envOK ⟨5, [], none⟩ [1, 2] 0 = .error .keyAgreement :=
  encrypt_unbound_fails envOK ⟨5, [], none⟩ [1, 2] 0 rfl

theorem encrypt_nondeterministic_witness :
    asn1.MarshalPair [1] (authsym.Encrypt (splitShared (dhkam.expandShared 7 48)).1
      (splitShared (dhkam.expandShared 7 48)).2 [1]) ≠
    asn1.MarshalPair [2] (authsym.Encrypt (splitShared (dhkam.expandShared 14 48)).1
      (splitShared (dhkam.expandShared 14 48)).2 [1]) :=
  (encrypt_nondeterministic envOK envOK ⟨5, [], some 7⟩ [1] 0 1 2
    (asn1.MarshalPair [1] (authsym.Encrypt (splitShared (dhkam.expandShared 7 48)).1
      (splitShared (dhkam.expandShared 7 48)).2 [1]))
    (asn1.MarshalPair [2] (authsym.Encrypt (splitShared (dhkam.expandShared 14 48)).1
      (splitShared (dhkam.expandShared 14 48)).2 [1]))
    (by decide) (by decide)).1

theorem splitShared_partitions_witness :
    (splitShared (List.replicate 48 0)).1.length = authsym.SymKeyLen ∧
    (splitShared (List.replicate 48 0)).2.length = sharedKeyLen - authsym.SymKeyLen ∧
    (splitShared (List.replicate 48 0)).1 ++ (splitShared (List.replicate 48 0)).2 =
      List.replicate 48 0 :=
  splitShared_partitions (List.replicate 48 0) (by decide)

theorem validate_response_roundtrip_witness :
    hap.Validate [1, 2] [3] (hap.Response [1, 2] [3]) = true :=
  validate_response_roundtrip.1 [1, 2] [3]

theorem matchPassword_roundtrip_and_exact_witness :
    Hash.MatchPassword [7] (Hash.DeriveKeyWithSalt [7] [9]) = true ∧
    (Hash.DeriveKeyWithSalt [7] (Hash.DeriveKeyWithSalt [7] [9]).Salt).Key =
      (Hash.DeriveKeyWithSalt [7] [9]).Key :=
  ⟨matchPassword_roundtrip_and_exact.1 [7] [9],
   (matchPassword_roundtrip_and_exact.2 [7] (Hash.DeriveKeyWithSalt [7] [9])
     (matchPassword_roundtrip_and_exact.1 [7] [9])).2⟩

end Gocrypto
